import Mathlib

/-!
Shallow embedding of the TTL LRU cache (Go package `ttl`, file
`src/unnamed/part_000`) together with a verification of its specified
properties.

Modelling conventions:
* Go `time.Time` and `time.Duration` are modelled as integers (`Int`);
  `time.Now()` becomes an explicit `now` parameter of every operation that
  reads the clock.  `t1.After t2` is `t2 < t1`, `now.Add ttl` is `now + ttl`.
* Values (Go `any`) are modelled as `Int`; keys are `String` as in the source.
* A `container/list` element is identified by the key of the `Item` it
  carries: the recency queue is the list of keys front-first, the key index
  is an association list from key to `Item`, and each expiration bucket
  stores the set of member keys.  This is faithful because the Go code keeps
  `items[k]` pointing to the unique list element whose `Item.Key = k`.
* The background sweeper goroutine is modelled by exposing its per-cycle
  body `deleteExpired` as a state transformer (the `time.Sleep` merely
  delays the unconditional cleanup, it does not change the resulting state).
-/

namespace TtlLru

abbrev Key := String
abbrev Val := Int
abbrev Time := Int

/-- Go struct `Item`: key, value, expiry instant, index of the owning
expiration bucket (`ExpireBucket uint8`). -/
structure Item where
  key : Key
  value : Val
  expiresAt : Time
  expireBucket : Nat
deriving Repr, DecidableEq

/-- Go struct `bucket`: the member entries (a Go map keyed by the item key,
here the list of member keys) and the `newestEntry` timestamp. -/
structure Bucket where
  entries : List Key
  newestEntry : Time
deriving Repr, DecidableEq

/-- Go constant `numBuckets = 100`. -/
def numBuckets : Nat := 100

/-- Go struct `LRU`: capacity, recency queue (front = most recently used),
key index, ttl, bucket ring and sweep cursor `nextCleanupBucket`. -/
structure LRU where
  cap : Int
  queue : List Key
  items : List (Key × Item)
  ttl : Time
  buckets : List Bucket
  nextCleanupBucket : Nat
deriving Repr, DecidableEq

/-- Go map lookup `c.items[key]`. -/
def mapGet : List (Key × Item) → Key → Option Item
  | [], _ => none
  | (k', it) :: m, k => if k' = k then some it else mapGet m k

/-- Go map deletion `delete(c.items, key)`: drop every binding of `key`
(a Go map holds at most one). -/
def eraseKey : List (Key × Item) → Key → List (Key × Item)
  | [], _ => []
  | (k', it) :: m, k => if k' = k then eraseKey m k else (k', it) :: eraseKey m k

/-- Go map update `c.items[key] = e`. -/
def mapSet (m : List (Key × Item)) (k : Key) (it : Item) : List (Key × Item) :=
  (k, it) :: eraseKey m k

/-- Read `c.buckets[i]` (every index the code uses is in range). -/
def getBucket (bs : List Bucket) (i : Nat) : Bucket :=
  bs.getD i { entries := [], newestEntry := 0 }

/-- Write `c.buckets[i]`. -/
def setBucket (bs : List Bucket) (i : Nat) (b : Bucket) : List Bucket :=
  bs.set i b

/-- Go `c.queue.MoveToFront(e)` on the element holding key `k`. -/
def moveToFront (q : List Key) (k : Key) : List Key :=
  k :: q.erase k

/-- Go `NewLRU(cap, ttl)`: negative capacity and ttl are clamped to 0; all
100 buckets start empty; the sweeper goroutine (started when `ttl != 0`) is
modelled separately by `deleteExpired`. -/
def NewLRU (cap ttl : Int) : LRU :=
  { cap := if cap < 0 then 0 else cap
    queue := []
    items := []
    ttl := if ttl < 0 then 0 else ttl
    buckets := List.replicate numBuckets { entries := [], newestEntry := 0 }
    nextCleanupBucket := 0 }

/-- The bucket index `addToBucket` computes: Go evaluates
`(numBuckets + c.nextCleanupBucket - 1) % numBuckets` in `uint8` arithmetic,
i.e. the sum is first reduced modulo 256. -/
def targetBucket (c : LRU) : Nat :=
  (numBuckets + c.nextCleanupBucket - 1) % 256 % numBuckets

/-- Go `(c *LRU) addToBucket(e)`: the entry's `ExpireBucket` field is set to
the target index, the entry is registered in that bucket, and the bucket's
`newestEntry` is raised when strictly smaller than the entry's `ExpiresAt`.
Field writes through the element are reflected in the key index. -/
def addToBucket (c : LRU) (it : Item) : LRU :=
  let bucketId := targetBucket c
  let it' := { it with expireBucket := bucketId }
  let b := getBucket c.buckets bucketId
  let b := { b with entries := it'.key :: b.entries.erase it'.key }
  let b := if b.newestEntry < it'.expiresAt then { b with newestEntry := it'.expiresAt } else b
  { c with buckets := setBucket c.buckets bucketId b
           items := mapSet c.items it'.key it' }

/-- Go `(c *LRU) removeFromBucket(e)`: delete the entry from the bucket its
`ExpireBucket` field names; `newestEntry` is left untouched. -/
def removeFromBucket (bs : List Bucket) (it : Item) : List Bucket :=
  let b := getBucket bs it.expireBucket
  setBucket bs it.expireBucket { b with entries := b.entries.erase it.key }

/-- Go `(c *LRU) removeElement(e)`: remove from the queue, the key index and
the owning bucket. -/
def removeElement (c : LRU) (it : Item) : LRU :=
  { c with queue := c.queue.erase it.key
           items := eraseKey c.items it.key
           buckets := removeFromBucket c.buckets it }

/-- Go private `(c *LRU) removeOldest()`: drop the back of the queue if any. -/
def removeOldest (c : LRU) : LRU :=
  match c.queue.getLast? with
  | some k =>
    match mapGet c.items k with
    | some it => removeElement c it
    | none => c
  | none => c

/-- Go `(c *LRU) Add(key, value)`.  Existing key: move to front, move to the
current target bucket, refresh value and expiry.  New key: evict the back of
the queue when `len(c.items) == c.cap`, then push the new entry at the front,
register it and assign its bucket. -/
def Add (c : LRU) (now : Time) (key : Key) (value : Val) : LRU :=
  match mapGet c.items key with
  | some it =>
    let c := { c with queue := moveToFront c.queue key }
    let c := { c with buckets := removeFromBucket c.buckets it }
    addToBucket c { it with value := value, expiresAt := now + c.ttl }
  | none =>
    let c := if (c.items.length : Int) = c.cap then removeOldest c else c
    let it : Item := { key := key, value := value, expiresAt := now + c.ttl, expireBucket := 0 }
    let c := { c with queue := key :: c.queue, items := mapSet c.items key it }
    addToBucket c it

/-- Go `(c *LRU) Get(key)`: absent gives `(nil, false)`; present but with
`time.Now().After(ExpiresAt)` gives `(nil, false)` without touching the
state; otherwise promote to the front and return the value.  `none` stands
for Go's `(nil, false)`, `some v` for `(v, true)`. -/
def Get (c : LRU) (now : Time) (key : Key) : LRU × Option Val :=
  match mapGet c.items key with
  | some it =>
    if it.expiresAt < now then (c, none)
    else ({ c with queue := moveToFront c.queue key }, some it.value)
  | none => (c, none)

/-- Go `(c *LRU) Remove(key)`. -/
def Remove (c : LRU) (key : Key) : LRU × Bool :=
  match mapGet c.items key with
  | some it => (removeElement c it, true)
  | none => (c, false)

/-- Go `(c *LRU) RemoveOldest()`: take the back of the queue (its `Item`
lives in the key index under the element's key), remove it everywhere and
return its key and value.  `none` stands for Go's `("", nil, false)`. -/
def RemoveOldest (c : LRU) : LRU × Option (Key × Val) :=
  match c.queue.getLast? with
  | some k =>
    match mapGet c.items k with
    | some it => (removeElement c it, some (it.key, it.value))
    | none => (c, none)
  | none => (c, none)

/-- Go `(c *LRU) Purge()`: empty the key index, every bucket's entry map
(each entry is stored under its item's key, so the deletion loop clears the
map) and the queue.  `newestEntry` values and the sweep cursor survive. -/
def Purge (c : LRU) : LRU :=
  { c with items := []
           queue := []
           buckets := c.buckets.map fun b => { b with entries := [] } }

/-- One iteration of the sweeper's removal loop: `removeElement` applied to
the element the bucket map stores for key `k` (fetched here from the key
index, which points at the same element). -/
def sweepRemove (c : LRU) (k : Key) : LRU :=
  match mapGet c.items k with
  | some it => removeElement c it
  | none => c

/-- Go `(c *LRU) deleteExpired()`, the sweeper's per-cycle body: remove every
entry of the bucket under the cursor, then advance the cursor.  The optional
`time.Sleep` before the cleanup only delays it; the removal itself is
unconditional, so the state transformation does not depend on the clock. -/
def deleteExpired (c : LRU) : LRU :=
  let bucketIdx := c.nextCleanupBucket
  let c' := (getBucket c.buckets bucketIdx).entries.foldl sweepRemove c
  { c' with nextCleanupBucket := (c'.nextCleanupBucket + 1) % numBuckets }

/-- The keys bound in the key index. -/
def keys (m : List (Key × Item)) : List Key := m.map Prod.fst

/-- Well-formedness of a cache state: the bucket ring has its fixed size, the
sweep cursor is in range, the queue and key index carry the same key set
without duplicates, every stored item records its own key and an in-range
bucket index, and bucket membership agrees exactly with the `ExpireBucket`
field of the indexed items. -/
structure WF (c : LRU) : Prop where
  bucketsLen : c.buckets.length = numBuckets
  cursorLt : c.nextCleanupBucket < numBuckets
  queueNodup : c.queue.Nodup
  keysNodup : (keys c.items).Nodup
  mem_queue_iff : ∀ k, k ∈ c.queue ↔ (mapGet c.items k).isSome
  item_key : ∀ k it, mapGet c.items k = some it → it.key = k
  item_bucket_lt : ∀ k it, mapGet c.items k = some it → it.expireBucket < numBuckets
  bucket_to_items : ∀ i k, k ∈ (getBucket c.buckets i).entries →
    ∃ it, mapGet c.items k = some it ∧ it.expireBucket = i
  items_to_bucket : ∀ k it, mapGet c.items k = some it →
    k ∈ (getBucket c.buckets it.expireBucket).entries
  bucketNodup : ∀ i, (getBucket c.buckets i).entries.Nodup

/-- The amended form of the spec's bucket invariant: a bucket's
`newestEntry` is an upper bound on the `ExpiresAt` of all of its current
members (the code never lowers it when members leave, so it need not be the
exact maximum). -/
def BucketBound (c : LRU) : Prop :=
  ∀ i k it, k ∈ (getBucket c.buckets i).entries → mapGet c.items k = some it →
    it.expiresAt ≤ (getBucket c.buckets i).newestEntry

/-- State of the cache in the middle of `Add`, right before `addToBucket`
runs for key `k`: everything of `WF` holds except that `k`, although already
present in queue and key index, is not yet a member of any bucket. -/
structure PreAdd (c : LRU) (k : Key) : Prop where
  bucketsLen : c.buckets.length = numBuckets
  cursorLt : c.nextCleanupBucket < numBuckets
  queueNodup : c.queue.Nodup
  keysNodup : (keys c.items).Nodup
  mem_queue_iff : ∀ k', k' ∈ c.queue ↔ (mapGet c.items k').isSome
  item_key : ∀ k' it, mapGet c.items k' = some it → it.key = k'
  k_mem : (mapGet c.items k).isSome
  item_bucket_lt : ∀ k' it, k' ≠ k → mapGet c.items k' = some it → it.expireBucket < numBuckets
  bucket_to_items : ∀ i k', k' ∈ (getBucket c.buckets i).entries →
    k' ≠ k ∧ ∃ it, mapGet c.items k' = some it ∧ it.expireBucket = i
  items_to_bucket : ∀ k' it, k' ≠ k → mapGet c.items k' = some it →
    k' ∈ (getBucket c.buckets it.expireBucket).entries
  bucketNodup : ∀ i, (getBucket c.buckets i).entries.Nodup
  bound : ∀ i k' it, k' ∈ (getBucket c.buckets i).entries → mapGet c.items k' = some it →
    it.expiresAt ≤ (getBucket c.buckets i).newestEntry

/-- The value `addToBucket` stores into the target bucket. -/
def newBucketFor (c : LRU) (it : Item) : Bucket :=
  let b := getBucket c.buckets (targetBucket c)
  let b2 : Bucket := { b with entries := it.key :: b.entries.erase it.key }
  if b2.newestEntry < it.expiresAt then { b2 with newestEntry := it.expiresAt } else b2

/-- States reachable from a fresh cache through the public operations and
sweeper cycles. -/
inductive Reachable : LRU → Prop where
  | new (cap ttl : Int) : Reachable (NewLRU cap ttl)
  | add (c : LRU) (now : Time) (k : Key) (v : Val) :
      Reachable c → Reachable (Add c now k v)
  | get (c : LRU) (now : Time) (k : Key) : Reachable c → Reachable (Get c now k).1
  | remove (c : LRU) (k : Key) : Reachable c → Reachable (Remove c k).1
  | removeOldest (c : LRU) : Reachable c → Reachable (RemoveOldest c).1
  | purge (c : LRU) : Reachable c → Reachable (Purge c)
  | sweep (c : LRU) : Reachable c → Reachable (deleteExpired c)

/-- A sequence of `Add` calls: each element gives the clock value, the key
and the value of one call, applied in order. -/
def addSeq (c : LRU) (ops : List (Time × Key × Val)) : LRU :=
  ops.foldl (fun acc op => Add acc op.1 op.2.1 op.2.2) c

/-- The state reached by `Add("A",1)` at time 0 on a fresh cache with
capacity 2 and ttl 10; at time 20 the entry is expired but unswept. -/
def C5state : LRU := Add (NewLRU 2 10) 0 "A" 1

/-- The state reached by `Add("A",1)` at time 0, `Add("B",2)` at time 5 and
`Remove("B")` on a fresh cache with capacity 10 and ttl 10.  Both entries
land in bucket 99; removing `B` (expiry 15) leaves `A` (expiry 10) as the
only member while `newestEntry` stays 15. -/
def C6state : LRU := (Remove (Add (Add (NewLRU 10 10) 0 "A" 1) 5 "B" 2) "B").1

/-! ### Association-list map lemmas -/

theorem mapGet_isSome_iff (m : List (Key × Item)) (k : Key) :
    (mapGet m k).isSome ↔ k ∈ keys m := by
  induction m with
  | nil => simp [mapGet, keys]
  | cons p m ih =>
    obtain ⟨k0, it⟩ := p
    by_cases h : k0 = k
    · subst h; simp [mapGet, keys]
    · simp [mapGet, keys, h, Ne.symm h, ih]

theorem mapGet_eq_none (m : List (Key × Item)) (k : Key) (h : k ∉ keys m) :
    mapGet m k = none := by
  have := (mapGet_isSome_iff m k).not.mpr h
  cases hm : mapGet m k
  · rfl
  · exact absurd (by simp [hm]) this

theorem mem_keys_of_mapGet (m : List (Key × Item)) (k : Key) (it : Item)
    (h : mapGet m k = some it) : k ∈ keys m :=
  (mapGet_isSome_iff m k).mp (by simp [h])

theorem mapGet_eraseKey_self (m : List (Key × Item)) (k : Key) :
    mapGet (eraseKey m k) k = none := by
  induction m with
  | nil => rfl
  | cons p m ih =>
    obtain ⟨k0, it⟩ := p
    by_cases h : k0 = k
    · simp [eraseKey, h, ih]
    · simp [eraseKey, mapGet, h, ih]

theorem mapGet_eraseKey_ne (m : List (Key × Item)) (k k' : Key) (h : k' ≠ k) :
    mapGet (eraseKey m k) k' = mapGet m k' := by
  induction m with
  | nil => rfl
  | cons p m ih =>
    obtain ⟨k0, it⟩ := p
    by_cases h0 : k0 = k
    · subst h0; simp [eraseKey, mapGet, Ne.symm h, ih]
    · simp only [eraseKey, if_neg h0, mapGet]
      by_cases h1 : k0 = k'
      · simp [h1]
      · simp [h1, ih]

theorem mapGet_mapSet_self (m : List (Key × Item)) (k : Key) (it : Item) :
    mapGet (mapSet m k it) k = some it := by
  simp [mapSet, mapGet]

theorem mapGet_mapSet_ne (m : List (Key × Item)) (k k' : Key) (it : Item) (h : k' ≠ k) :
    mapGet (mapSet m k it) k' = mapGet m k' := by
  simp only [mapSet, mapGet, if_neg (Ne.symm h)]
  exact mapGet_eraseKey_ne m k k' h

theorem keys_eraseKey_sublist (m : List (Key × Item)) (k : Key) :
    List.Sublist (keys (eraseKey m k)) (keys m) := by
  induction m with
  | nil => simp [eraseKey, keys]
  | cons p m ih =>
    obtain ⟨k0, it⟩ := p
    by_cases h : k0 = k
    · simpa [eraseKey, keys, h] using ih.cons k0
    · simpa [eraseKey, keys, h] using ih.cons₂ k0

theorem nodup_keys_eraseKey (m : List (Key × Item)) (k : Key)
    (h : (keys m).Nodup) : (keys (eraseKey m k)).Nodup :=
  (keys_eraseKey_sublist m k).nodup h

theorem not_mem_keys_eraseKey (m : List (Key × Item)) (k : Key) :
    k ∉ keys (eraseKey m k) := by
  intro hmem
  have := (mapGet_isSome_iff (eraseKey m k) k).mpr hmem
  simp [mapGet_eraseKey_self] at this

theorem nodup_keys_mapSet (m : List (Key × Item)) (k : Key) (it : Item)
    (h : (keys m).Nodup) : (keys (mapSet m k it)).Nodup := by
  have : keys (mapSet m k it) = k :: keys (eraseKey m k) := by simp [mapSet, keys]
  rw [this]
  exact List.nodup_cons.mpr ⟨not_mem_keys_eraseKey m k, nodup_keys_eraseKey m k h⟩

theorem eraseKey_eq_of_not_mem (m : List (Key × Item)) (k : Key)
    (h : mapGet m k = none) : eraseKey m k = m := by
  induction m with
  | nil => rfl
  | cons p m ih =>
    obtain ⟨k0, it⟩ := p
    by_cases h0 : k0 = k
    · subst h0; simp [mapGet] at h
    · simp only [mapGet, if_neg h0] at h
      simp [eraseKey, h0, ih h]

theorem length_eraseKey_add_one (m : List (Key × Item)) (k : Key)
    (hnd : (keys m).Nodup) (h : (mapGet m k).isSome) :
    (eraseKey m k).length + 1 = m.length := by
  induction m with
  | nil => simp [mapGet] at h
  | cons p m ih =>
    obtain ⟨k0, it⟩ := p
    have hnd' := List.nodup_cons.mp (show (k0 :: keys m).Nodup from hnd)
    by_cases h0 : k0 = k
    · subst h0
      have hnone : mapGet m k0 = none := mapGet_eq_none m k0 hnd'.1
      simp [eraseKey, eraseKey_eq_of_not_mem m k0 hnone]
    · simp only [mapGet, if_neg h0] at h
      have := ih hnd'.2 h
      simp only [eraseKey, if_neg h0, List.length_cons]
      omega

theorem length_mapSet_of_mem (m : List (Key × Item)) (k : Key) (it : Item)
    (hnd : (keys m).Nodup) (h : (mapGet m k).isSome) :
    (mapSet m k it).length = m.length := by
  simp only [mapSet, List.length_cons]
  exact length_eraseKey_add_one m k hnd h

theorem length_mapSet_of_not_mem (m : List (Key × Item)) (k : Key) (it : Item)
    (h : mapGet m k = none) : (mapSet m k it).length = m.length + 1 := by
  simp [mapSet, eraseKey_eq_of_not_mem m k h]

/-! ### Bucket ring lemmas -/

theorem length_setBucket (bs : List Bucket) (i : Nat) (b : Bucket) :
    (setBucket bs i b).length = bs.length :=
  List.length_set bs i b

theorem getBucket_setBucket_self (bs : List Bucket) (i : Nat) (b : Bucket)
    (h : i < bs.length) : getBucket (setBucket bs i b) i = b := by
  simp [getBucket, setBucket, List.getD_eq_getElem?_getD, List.getElem?_set_self, h]

theorem getBucket_setBucket_ne (bs : List Bucket) (i j : Nat) (b : Bucket)
    (h : j ≠ i) : getBucket (setBucket bs i b) j = getBucket bs j := by
  simp [getBucket, setBucket, List.getD_eq_getElem?_getD,
    List.getElem?_set_ne (Ne.symm h)]

theorem getBucket_map_clear (bs : List Bucket) (i : Nat) :
    (getBucket (bs.map fun b => { b with entries := ([] : List Key) }) i).entries = [] := by
  simp only [getBucket, List.getD_eq_getElem?_getD, List.getElem?_map]
  cases bs[i]? <;> simp

theorem getBucket_replicate_empty (n i : Nat) :
    getBucket (List.replicate n { entries := [], newestEntry := 0 }) i
      = { entries := [], newestEntry := 0 } := by
  simp only [getBucket, List.getD_eq_getElem?_getD, List.getElem?_replicate]
  split <;> simp

/-! ### Queue lemmas -/

theorem nodup_moveToFront (q : List Key) (k : Key) (h : q.Nodup) :
    (moveToFront q k).Nodup := by
  refine List.nodup_cons.mpr ⟨?_, h.erase k⟩
  intro hmem
  exact absurd (h.mem_erase_iff.mp hmem).1 (by simp)

theorem mem_moveToFront_iff (q : List Key) (k k' : Key) (h : q.Nodup) (hk : k ∈ q) :
    k' ∈ moveToFront q k ↔ k' ∈ q := by
  simp only [moveToFront, List.mem_cons, h.mem_erase_iff]
  constructor
  · rintro (rfl | ⟨-, hq⟩)
    · exact hk
    · exact hq
  · intro hq
    by_cases hkk : k' = k
    · exact Or.inl hkk
    · exact Or.inr ⟨hkk, hq⟩

/-! ### Structural well-formedness -/

theorem WF_NewLRU (cap ttl : Int) : WF (NewLRU cap ttl) where
  bucketsLen := by simp [NewLRU]
  cursorLt := by simp [NewLRU, numBuckets]
  queueNodup := by simp [NewLRU]
  keysNodup := by simp [NewLRU, keys]
  mem_queue_iff := by intro k; simp [NewLRU, mapGet]
  item_key := by intro k it h; simp [NewLRU, mapGet] at h
  item_bucket_lt := by intro k it h; simp [NewLRU, mapGet] at h
  bucket_to_items := by
    intro i k h
    rw [show (NewLRU cap ttl).buckets
        = List.replicate numBuckets { entries := [], newestEntry := 0 } from rfl,
      getBucket_replicate_empty] at h
    simp at h
  items_to_bucket := by intro k it h; simp [NewLRU, mapGet] at h
  bucketNodup := by
    intro i
    rw [show (NewLRU cap ttl).buckets
        = List.replicate numBuckets { entries := [], newestEntry := 0 } from rfl,
      getBucket_replicate_empty]
    simp

theorem BucketBound_NewLRU (cap ttl : Int) : BucketBound (NewLRU cap ttl) := by
  intro i k it h
  rw [show (NewLRU cap ttl).buckets
      = List.replicate numBuckets { entries := [], newestEntry := 0 } from rfl,
    getBucket_replicate_empty] at h
  simp at h

/-! ### Equation lemmas for the operation paths -/

theorem Add_refresh_eq (c : LRU) (now : Time) (key : Key) (v : Val) (it : Item)
    (h : mapGet c.items key = some it) :
    Add c now key v = addToBucket
      { c with queue := moveToFront c.queue key
               buckets := removeFromBucket c.buckets it }
      { it with value := v, expiresAt := now + c.ttl } := by
  unfold Add
  rw [h]

theorem Add_insert_eq (c : LRU) (now : Time) (key : Key) (v : Val)
    (h : mapGet c.items key = none) :
    Add c now key v =
      (let c1 := if (c.items.length : Int) = c.cap then removeOldest c else c
       addToBucket
        { c1 with queue := key :: c1.queue
                  items := mapSet c1.items key
                    { key := key, value := v, expiresAt := now + c1.ttl, expireBucket := 0 } }
        { key := key, value := v, expiresAt := now + c1.ttl, expireBucket := 0 }) := by
  unfold Add
  rw [h]

/-! ### Preservation by removeElement -/

theorem WF_removeElement (c : LRU) (it : Item) (hWF : WF c)
    (hit : mapGet c.items it.key = some it) : WF (removeElement c it) := by
  obtain ⟨hbl, hcl, hqn, hkn, hmq, hik, hibl, hbti, hitb, hbn⟩ := hWF
  have hi : it.expireBucket < c.buckets.length := by rw [hbl]; exact hibl _ _ hit
  have hself : getBucket (removeFromBucket c.buckets it) it.expireBucket
      = { getBucket c.buckets it.expireBucket with
          entries := (getBucket c.buckets it.expireBucket).entries.erase it.key } :=
    getBucket_setBucket_self _ _ _ hi
  have hne : ∀ j, j ≠ it.expireBucket →
      getBucket (removeFromBucket c.buckets it) j = getBucket c.buckets j := by
    intro j hj
    exact getBucket_setBucket_ne _ _ _ _ hj
  constructor
  · show (removeFromBucket c.buckets it).length = numBuckets
    simpa [removeFromBucket, setBucket] using hbl
  · exact hcl
  · exact hqn.erase it.key
  · exact nodup_keys_eraseKey _ _ hkn
  · intro k
    show k ∈ c.queue.erase it.key ↔ (mapGet (eraseKey c.items it.key) k).isSome
    by_cases hk : k = it.key
    · subst hk
      simp [hqn.mem_erase_iff, mapGet_eraseKey_self]
    · rw [mapGet_eraseKey_ne _ _ _ hk, hqn.mem_erase_iff]
      simp [hk, hmq k]
  · intro k it' h
    by_cases hk : k = it.key
    · subst hk; rw [show (removeElement c it).items = eraseKey c.items it.key from rfl,
        mapGet_eraseKey_self] at h; cases h
    · rw [show (removeElement c it).items = eraseKey c.items it.key from rfl,
        mapGet_eraseKey_ne _ _ _ hk] at h
      exact hik _ _ h
  · intro k it' h
    by_cases hk : k = it.key
    · subst hk; rw [show (removeElement c it).items = eraseKey c.items it.key from rfl,
        mapGet_eraseKey_self] at h; cases h
    · rw [show (removeElement c it).items = eraseKey c.items it.key from rfl,
        mapGet_eraseKey_ne _ _ _ hk] at h
      exact hibl _ _ h
  · intro j k hmem
    rw [show (removeElement c it).buckets = removeFromBucket c.buckets it from rfl] at hmem
    show ∃ it', mapGet (eraseKey c.items it.key) k = some it' ∧ it'.expireBucket = j
    by_cases hj : j = it.expireBucket
    · subst hj
      rw [hself] at hmem
      obtain ⟨hkne, hkold⟩ := (hbn it.expireBucket).mem_erase_iff.mp hmem
      obtain ⟨it', hit', hbk⟩ := hbti _ _ hkold
      exact ⟨it', by rw [mapGet_eraseKey_ne _ _ _ hkne]; exact hit', hbk⟩
    · rw [hne j hj] at hmem
      obtain ⟨it', hit', hbk⟩ := hbti _ _ hmem
      have hkne : k ≠ it.key := by
        rintro rfl
        rw [hit'] at hit
        have : it' = it := Option.some.inj hit
        subst this
        exact hj hbk.symm
      exact ⟨it', by rw [mapGet_eraseKey_ne _ _ _ hkne]; exact hit', hbk⟩
  · intro k it' h
    rw [show (removeElement c it).items = eraseKey c.items it.key from rfl] at h
    rw [show (removeElement c it).buckets = removeFromBucket c.buckets it from rfl]
    by_cases hk : k = it.key
    · subst hk; rw [mapGet_eraseKey_self] at h; cases h
    · rw [mapGet_eraseKey_ne _ _ _ hk] at h
      have hold := hitb _ _ h
      by_cases hj : it'.expireBucket = it.expireBucket
      · rw [hj, hself]
        exact (hbn it.expireBucket).mem_erase_iff.mpr ⟨hk, by rw [← hj]; exact hold⟩
      · rw [hne _ hj]
        exact hold
  · intro j
    rw [show (removeElement c it).buckets = removeFromBucket c.buckets it from rfl]
    by_cases hj : j = it.expireBucket
    · subst hj; rw [hself]; exact (hbn _).erase _
    · rw [hne j hj]; exact hbn j

theorem BucketBound_removeElement (c : LRU) (it : Item) (hWF : WF c) (hB : BucketBound c)
    (hit : mapGet c.items it.key = some it) : BucketBound (removeElement c it) := by
  intro j k it' hmem h
  have hi : it.expireBucket < c.buckets.length := by
    rw [hWF.bucketsLen]; exact hWF.item_bucket_lt _ _ hit
  have hself : getBucket (removeFromBucket c.buckets it) it.expireBucket
      = { getBucket c.buckets it.expireBucket with
          entries := (getBucket c.buckets it.expireBucket).entries.erase it.key } :=
    getBucket_setBucket_self _ _ _ hi
  have hne : ∀ j', j' ≠ it.expireBucket →
      getBucket (removeFromBucket c.buckets it) j' = getBucket c.buckets j' := by
    intro j' hj'
    exact getBucket_setBucket_ne _ _ _ _ hj'
  rw [show (removeElement c it).items = eraseKey c.items it.key from rfl] at h
  rw [show (removeElement c it).buckets = removeFromBucket c.buckets it from rfl] at hmem ⊢
  by_cases hk : k = it.key
  · subst hk; rw [mapGet_eraseKey_self] at h; cases h
  · rw [mapGet_eraseKey_ne _ _ _ hk] at h
    by_cases hj : j = it.expireBucket
    · subst hj
      rw [hself] at hmem ⊢
      exact hB _ _ _ (List.mem_of_mem_erase hmem) h
    · rw [hne j hj] at hmem ⊢
      exact hB _ _ _ hmem h

/-! ### Preservation by addToBucket -/

theorem targetBucket_lt (c : LRU) : targetBucket c < numBuckets :=
  Nat.mod_lt _ (by norm_num [numBuckets])

theorem addToBucket_buckets (c : LRU) (it : Item) :
    (addToBucket c it).buckets = setBucket c.buckets (targetBucket c) (newBucketFor c it) := rfl

theorem addToBucket_items (c : LRU) (it : Item) :
    (addToBucket c it).items
      = mapSet c.items it.key { it with expireBucket := targetBucket c } := rfl

theorem newBucketFor_entries (c : LRU) (it : Item) :
    (newBucketFor c it).entries
      = it.key :: (getBucket c.buckets (targetBucket c)).entries.erase it.key := by
  by_cases h : (getBucket c.buckets (targetBucket c)).newestEntry < it.expiresAt <;>
    simp [newBucketFor, h]

theorem newBucketFor_newest (c : LRU) (it : Item) :
    (newBucketFor c it).newestEntry
      = if (getBucket c.buckets (targetBucket c)).newestEntry < it.expiresAt
        then it.expiresAt
        else (getBucket c.buckets (targetBucket c)).newestEntry := by
  by_cases h : (getBucket c.buckets (targetBucket c)).newestEntry < it.expiresAt <;>
    simp [newBucketFor, h]

theorem le_newBucketFor_old (c : LRU) (it : Item) :
    (getBucket c.buckets (targetBucket c)).newestEntry ≤ (newBucketFor c it).newestEntry := by
  rw [newBucketFor_newest]
  split
  · exact le_of_lt (by assumption)
  · exact le_refl _

theorem le_newBucketFor_exp (c : LRU) (it : Item) :
    it.expiresAt ≤ (newBucketFor c it).newestEntry := by
  rw [newBucketFor_newest]
  split
  · exact le_refl _
  · exact le_of_not_lt (by assumption)

theorem WF_addToBucket (c : LRU) (it : Item) (k : Key) (hk : it.key = k)
    (hpre : PreAdd c k) : WF (addToBucket c it) := by
  subst hk
  obtain ⟨hbl, hcl, hqn, hkn, hmq, hik, hkm, hibl, hbti, hitb, hbn, hbd⟩ := hpre
  have hlt : targetBucket c < c.buckets.length := by rw [hbl]; exact targetBucket_lt c
  have hGself : getBucket (addToBucket c it).buckets (targetBucket c) = newBucketFor c it := by
    rw [addToBucket_buckets]
    exact getBucket_setBucket_self _ _ _ hlt
  have hGne : ∀ j, j ≠ targetBucket c →
      getBucket (addToBucket c it).buckets j = getBucket c.buckets j := by
    intro j hj
    rw [addToBucket_buckets]
    exact getBucket_setBucket_ne _ _ _ _ hj
  constructor
  · rw [addToBucket_buckets, length_setBucket]; exact hbl
  · exact hcl
  · exact hqn
  · rw [addToBucket_items]; exact nodup_keys_mapSet _ _ _ hkn
  · intro k'
    rw [addToBucket_items]
    show k' ∈ c.queue ↔ _
    by_cases hkk : k' = it.key
    · subst hkk
      rw [mapGet_mapSet_self]
      simp only [Option.isSome_some]
      exact iff_of_true ((hmq _).mpr hkm) trivial
    · rw [mapGet_mapSet_ne _ _ _ _ hkk]
      exact hmq k'
  · intro k' it' h
    rw [addToBucket_items] at h
    by_cases hkk : k' = it.key
    · subst hkk
      rw [mapGet_mapSet_self] at h
      have := Option.some.inj h
      subst this
      rfl
    · rw [mapGet_mapSet_ne _ _ _ _ hkk] at h
      exact hik _ _ h
  · intro k' it' h
    rw [addToBucket_items] at h
    by_cases hkk : k' = it.key
    · subst hkk
      rw [mapGet_mapSet_self] at h
      have := Option.some.inj h
      subst this
      exact targetBucket_lt c
    · rw [mapGet_mapSet_ne _ _ _ _ hkk] at h
      exact hibl _ _ hkk h
  · intro j k' hmem
    rw [addToBucket_items]
    by_cases hj : j = targetBucket c
    · subst hj
      rw [hGself, newBucketFor_entries] at hmem
      rcases List.mem_cons.mp hmem with rfl | hmem'
      · exact ⟨_, mapGet_mapSet_self _ _ _, rfl⟩
      · have hold := List.mem_of_mem_erase hmem'
        obtain ⟨hne', it', hit', hbk⟩ := hbti _ _ hold
        exact ⟨it', by rw [mapGet_mapSet_ne _ _ _ _ hne']; exact hit', hbk⟩
    · rw [hGne j hj] at hmem
      obtain ⟨hne', it', hit', hbk⟩ := hbti _ _ hmem
      exact ⟨it', by rw [mapGet_mapSet_ne _ _ _ _ hne']; exact hit', hbk⟩
  · intro k' it' h
    rw [addToBucket_items] at h
    by_cases hkk : k' = it.key
    · subst hkk
      rw [mapGet_mapSet_self] at h
      have := Option.some.inj h
      subst this
      show it.key ∈ (getBucket (addToBucket c it).buckets (targetBucket c)).entries
      rw [hGself, newBucketFor_entries]
      exact List.mem_cons_self _ _
    · rw [mapGet_mapSet_ne _ _ _ _ hkk] at h
      have hold := hitb _ _ hkk h
      by_cases hj : it'.expireBucket = targetBucket c
      · rw [hj, hGself, newBucketFor_entries]
        refine List.mem_cons_of_mem _ ?_
        refine (hbn (targetBucket c)).mem_erase_iff.mpr ⟨hkk, ?_⟩
        rw [← hj]
        exact hold
      · rw [hGne _ hj]
        exact hold
  · intro j
    by_cases hj : j = targetBucket c
    · subst hj
      rw [hGself, newBucketFor_entries]
      refine List.nodup_cons.mpr ⟨?_, (hbn _).erase _⟩
      intro hmem
      exact absurd ((hbn _).mem_erase_iff.mp hmem).1 (by simp)
    · rw [hGne j hj]
      exact hbn j

theorem BucketBound_addToBucket (c : LRU) (it : Item) (k : Key) (hk : it.key = k)
    (hpre : PreAdd c k) : BucketBound (addToBucket c it) := by
  subst hk
  obtain ⟨hbl, hcl, hqn, hkn, hmq, hik, hkm, hibl, hbti, hitb, hbn, hbd⟩ := hpre
  have hlt : targetBucket c < c.buckets.length := by rw [hbl]; exact targetBucket_lt c
  have hGself : getBucket (addToBucket c it).buckets (targetBucket c) = newBucketFor c it := by
    rw [addToBucket_buckets]
    exact getBucket_setBucket_self _ _ _ hlt
  have hGne : ∀ j, j ≠ targetBucket c →
      getBucket (addToBucket c it).buckets j = getBucket c.buckets j := by
    intro j hj
    rw [addToBucket_buckets]
    exact getBucket_setBucket_ne _ _ _ _ hj
  intro j k' it' hmem h
  rw [addToBucket_items] at h
  by_cases hj : j = targetBucket c
  · subst hj
    rw [hGself] at hmem ⊢
    rw [newBucketFor_entries] at hmem
    rcases List.mem_cons.mp hmem with rfl | hmem'
    · rw [mapGet_mapSet_self] at h
      have := Option.some.inj h
      subst this
      exact le_newBucketFor_exp c it
    · obtain ⟨hne', hold⟩ := (hbn _).mem_erase_iff.mp hmem'
      rw [mapGet_mapSet_ne _ _ _ _ hne'] at h
      exact le_trans (hbd _ _ _ hold h) (le_newBucketFor_old c it)
  · rw [hGne j hj] at hmem ⊢
    obtain ⟨hne', -⟩ := hbti _ _ hmem
    rw [mapGet_mapSet_ne _ _ _ _ hne'] at h
    exact hbd _ _ _ hmem h


/-! ### Equation lemmas for the remaining operation paths -/

theorem removeOldest_eq_empty (c : LRU) (h : c.queue.getLast? = none) :
    removeOldest c = c := by
  unfold removeOldest
  rw [h]

theorem removeOldest_eq_dangling (c : LRU) (k : Key)
    (hq : c.queue.getLast? = some k) (hm : mapGet c.items k = none) :
    removeOldest c = c := by
  unfold removeOldest
  rw [hq]
  show (match mapGet c.items k with
        | some it => removeElement c it
        | none => c) = c
  rw [hm]

theorem removeOldest_eq_found (c : LRU) (k : Key) (it : Item)
    (hq : c.queue.getLast? = some k) (hm : mapGet c.items k = some it) :
    removeOldest c = removeElement c it := by
  unfold removeOldest
  rw [hq]
  show (match mapGet c.items k with
        | some it => removeElement c it
        | none => c) = removeElement c it
  rw [hm]

theorem RemoveOldest_eq_empty (c : LRU) (h : c.queue.getLast? = none) :
    RemoveOldest c = (c, none) := by
  unfold RemoveOldest
  rw [h]

theorem RemoveOldest_eq_dangling (c : LRU) (k : Key)
    (hq : c.queue.getLast? = some k) (hm : mapGet c.items k = none) :
    RemoveOldest c = (c, none) := by
  unfold RemoveOldest
  rw [hq]
  show (match mapGet c.items k with
        | some it => (removeElement c it, some (it.key, it.value))
        | none => (c, none)) = (c, none)
  rw [hm]

theorem RemoveOldest_eq_found (c : LRU) (k : Key) (it : Item)
    (hq : c.queue.getLast? = some k) (hm : mapGet c.items k = some it) :
    RemoveOldest c = (removeElement c it, some (it.key, it.value)) := by
  unfold RemoveOldest
  rw [hq]
  show (match mapGet c.items k with
        | some it => (removeElement c it, some (it.key, it.value))
        | none => (c, none)) = (removeElement c it, some (it.key, it.value))
  rw [hm]

theorem Remove_eq_absent (c : LRU) (key : Key) (h : mapGet c.items key = none) :
    Remove c key = (c, false) := by
  unfold Remove
  rw [h]

theorem Remove_eq_found (c : LRU) (key : Key) (it : Item)
    (h : mapGet c.items key = some it) :
    Remove c key = (removeElement c it, true) := by
  unfold Remove
  rw [h]

theorem Get_eq_absent (c : LRU) (now : Time) (key : Key)
    (h : mapGet c.items key = none) : Get c now key = (c, none) := by
  unfold Get
  rw [h]

theorem Get_eq_expired (c : LRU) (now : Time) (key : Key) (it : Item)
    (h : mapGet c.items key = some it) (hexp : it.expiresAt < now) :
    Get c now key = (c, none) := by
  unfold Get
  rw [h]
  show (if it.expiresAt < now then (c, none)
        else ({ c with queue := moveToFront c.queue key }, some it.value)) = (c, none)
  rw [if_pos hexp]

theorem Get_eq_live (c : LRU) (now : Time) (key : Key) (it : Item)
    (h : mapGet c.items key = some it) (hexp : ¬ it.expiresAt < now) :
    Get c now key = ({ c with queue := moveToFront c.queue key }, some it.value) := by
  unfold Get
  rw [h]
  show (if it.expiresAt < now then (c, none)
        else ({ c with queue := moveToFront c.queue key }, some it.value))
      = ({ c with queue := moveToFront c.queue key }, some it.value)
  rw [if_neg hexp]

theorem Add_insert_full_eq (c : LRU) (now : Time) (key : Key) (v : Val)
    (hm : mapGet c.items key = none) (hlen : (c.items.length : Int) = c.cap) :
    Add c now key v = addToBucket
      { removeOldest c with
        queue := key :: (removeOldest c).queue
        items := mapSet (removeOldest c).items key
          { key := key, value := v, expiresAt := now + (removeOldest c).ttl, expireBucket := 0 } }
      { key := key, value := v, expiresAt := now + (removeOldest c).ttl, expireBucket := 0 } := by
  unfold Add
  rw [hm, if_pos hlen]

theorem Add_insert_slack_eq (c : LRU) (now : Time) (key : Key) (v : Val)
    (hm : mapGet c.items key = none) (hlen : ¬ (c.items.length : Int) = c.cap) :
    Add c now key v = addToBucket
      { c with
        queue := key :: c.queue
        items := mapSet c.items key
          { key := key, value := v, expiresAt := now + c.ttl, expireBucket := 0 } }
      { key := key, value := v, expiresAt := now + c.ttl, expireBucket := 0 } := by
  unfold Add
  rw [hm, if_neg hlen]

/-! ### Preservation of the invariants by every operation -/

theorem Inv_removeOldest (c : LRU) (hWF : WF c) (hB : BucketBound c) :
    WF (removeOldest c) ∧ BucketBound (removeOldest c) := by
  cases hq : c.queue.getLast? with
  | none => rw [removeOldest_eq_empty c hq]; exact ⟨hWF, hB⟩
  | some k =>
    cases hm : mapGet c.items k with
    | none => rw [removeOldest_eq_dangling c k hq hm]; exact ⟨hWF, hB⟩
    | some it =>
      rw [removeOldest_eq_found c k it hq hm]
      have hit : mapGet c.items it.key = some it := by
        rw [hWF.item_key _ _ hm]; exact hm
      exact ⟨WF_removeElement c it hWF hit, BucketBound_removeElement c it hWF hB hit⟩

theorem mapGet_removeOldest_none (c : LRU) (key : Key) (h : mapGet c.items key = none) :
    mapGet (removeOldest c).items key = none := by
  cases hq : c.queue.getLast? with
  | none => rw [removeOldest_eq_empty c hq]; exact h
  | some k =>
    cases hm : mapGet c.items k with
    | none => rw [removeOldest_eq_dangling c k hq hm]; exact h
    | some it =>
      rw [removeOldest_eq_found c k it hq hm]
      show mapGet (eraseKey c.items it.key) key = none
      by_cases hkk : key = it.key
      · subst hkk; exact mapGet_eraseKey_self _ _
      · rw [mapGet_eraseKey_ne _ _ _ hkk]; exact h

theorem Inv_Remove (c : LRU) (key : Key) (hWF : WF c) (hB : BucketBound c) :
    WF (Remove c key).1 ∧ BucketBound (Remove c key).1 := by
  cases hm : mapGet c.items key with
  | none => rw [Remove_eq_absent c key hm]; exact ⟨hWF, hB⟩
  | some it =>
    rw [Remove_eq_found c key it hm]
    have hit : mapGet c.items it.key = some it := by
      rw [hWF.item_key _ _ hm]; exact hm
    exact ⟨WF_removeElement c it hWF hit, BucketBound_removeElement c it hWF hB hit⟩

theorem Inv_RemoveOldest (c : LRU) (hWF : WF c) (hB : BucketBound c) :
    WF (RemoveOldest c).1 ∧ BucketBound (RemoveOldest c).1 := by
  cases hq : c.queue.getLast? with
  | none => rw [RemoveOldest_eq_empty c hq]; exact ⟨hWF, hB⟩
  | some k =>
    cases hm : mapGet c.items k with
    | none => rw [RemoveOldest_eq_dangling c k hq hm]; exact ⟨hWF, hB⟩
    | some it =>
      rw [RemoveOldest_eq_found c k it hq hm]
      have hit : mapGet c.items it.key = some it := by
        rw [hWF.item_key _ _ hm]; exact hm
      exact ⟨WF_removeElement c it hWF hit, BucketBound_removeElement c it hWF hB hit⟩

theorem Inv_Get (c : LRU) (now : Time) (key : Key) (hWF : WF c) (hB : BucketBound c) :
    WF (Get c now key).1 ∧ BucketBound (Get c now key).1 := by
  cases hm : mapGet c.items key with
  | none => rw [Get_eq_absent c now key hm]; exact ⟨hWF, hB⟩
  | some it =>
    by_cases hexp : it.expiresAt < now
    · rw [Get_eq_expired c now key it hm hexp]; exact ⟨hWF, hB⟩
    · rw [Get_eq_live c now key it hm hexp]
      obtain ⟨hbl, hcl, hqn, hkn, hmq, hik, hibl, hbti, hitb, hbn⟩ := hWF
      have hkq : key ∈ c.queue := (hmq key).mpr (by simp [hm])
      refine ⟨⟨hbl, hcl, nodup_moveToFront _ _ hqn, hkn, ?_, hik, hibl, hbti, hitb, hbn⟩, hB⟩
      intro k'
      show k' ∈ moveToFront c.queue key ↔ _
      rw [mem_moveToFront_iff _ _ _ hqn hkq]
      exact hmq k'

theorem WF_Purge (c : LRU) (hWF : WF c) : WF (Purge c) := by
  constructor
  · show (c.buckets.map _).length = numBuckets
    simpa using hWF.bucketsLen
  · exact hWF.cursorLt
  · exact List.nodup_nil
  · exact List.nodup_nil
  · intro k
    show k ∈ ([] : List Key) ↔ (mapGet ([] : List (Key × Item)) k).isSome
    simp [mapGet]
  · intro k it h
    cases h
  · intro k it h
    cases h
  · intro i k hmem
    have hmem' : k ∈ (getBucket
        (c.buckets.map fun b => { b with entries := ([] : List Key) }) i).entries := hmem
    rw [getBucket_map_clear] at hmem'
    cases hmem'
  · intro k it h
    cases h
  · intro i
    show (getBucket (c.buckets.map fun b => { b with entries := ([] : List Key) }) i).entries.Nodup
    rw [getBucket_map_clear]
    exact List.nodup_nil

theorem BucketBound_Purge (c : LRU) : BucketBound (Purge c) := by
  intro i k it hmem h
  have hmem' : k ∈ (getBucket
      (c.buckets.map fun b => { b with entries := ([] : List Key) }) i).entries := hmem
  rw [getBucket_map_clear] at hmem'
  cases hmem'

theorem sweepRemove_eq_found (c : LRU) (k : Key) (it : Item)
    (hm : mapGet c.items k = some it) : sweepRemove c k = removeElement c it := by
  unfold sweepRemove
  rw [hm]

theorem sweepRemove_eq_absent (c : LRU) (k : Key) (hm : mapGet c.items k = none) :
    sweepRemove c k = c := by
  unfold sweepRemove
  rw [hm]

theorem Inv_sweepRemove (c : LRU) (k : Key) (hWF : WF c) (hB : BucketBound c) :
    WF (sweepRemove c k) ∧ BucketBound (sweepRemove c k) := by
  cases hm : mapGet c.items k with
  | none => rw [sweepRemove_eq_absent c k hm]; exact ⟨hWF, hB⟩
  | some it =>
    rw [sweepRemove_eq_found c k it hm]
    have hit : mapGet c.items it.key = some it := by
      rw [hWF.item_key _ _ hm]; exact hm
    exact ⟨WF_removeElement c it hWF hit, BucketBound_removeElement c it hWF hB hit⟩

theorem Inv_foldl_sweepRemove (l : List Key) :
    ∀ c : LRU, WF c → BucketBound c →
      WF (l.foldl sweepRemove c) ∧ BucketBound (l.foldl sweepRemove c) := by
  induction l with
  | nil => intro c hWF hB; exact ⟨hWF, hB⟩
  | cons k l ih =>
    intro c hWF hB
    obtain ⟨hWF', hB'⟩ := Inv_sweepRemove c k hWF hB
    exact ih _ hWF' hB'

theorem Inv_deleteExpired (c : LRU) (hWF : WF c) (hB : BucketBound c) :
    WF (deleteExpired c) ∧ BucketBound (deleteExpired c) := by
  obtain ⟨hWF', hB'⟩ := Inv_foldl_sweepRemove
    (getBucket c.buckets c.nextCleanupBucket).entries c hWF hB
  obtain ⟨hbl, hcl, hqn, hkn, hmq, hik, hibl, hbti, hitb, hbn⟩ := hWF'
  exact ⟨⟨hbl, Nat.mod_lt _ (by norm_num [numBuckets]), hqn, hkn, hmq, hik, hibl,
    hbti, hitb, hbn⟩, hB'⟩

theorem PreAdd_refresh (c : LRU) (key : Key) (it : Item) (hWF : WF c) (hB : BucketBound c)
    (hm : mapGet c.items key = some it) :
    PreAdd { c with queue := moveToFront c.queue key
                    buckets := removeFromBucket c.buckets it } key := by
  obtain ⟨hbl, hcl, hqn, hkn, hmq, hik, hibl, hbti, hitb, hbn⟩ := hWF
  have hkey : it.key = key := hik _ _ hm
  have hkq : key ∈ c.queue := (hmq key).mpr (by simp [hm])
  have hi : it.expireBucket < c.buckets.length := by rw [hbl]; exact hibl _ _ hm
  have hself : getBucket (removeFromBucket c.buckets it) it.expireBucket
      = { getBucket c.buckets it.expireBucket with
          entries := (getBucket c.buckets it.expireBucket).entries.erase it.key } :=
    getBucket_setBucket_self _ _ _ hi
  have hne : ∀ j, j ≠ it.expireBucket →
      getBucket (removeFromBucket c.buckets it) j = getBucket c.buckets j := by
    intro j hj
    exact getBucket_setBucket_ne _ _ _ _ hj
  constructor
  · show (removeFromBucket c.buckets it).length = numBuckets
    simpa [removeFromBucket, setBucket] using hbl
  · exact hcl
  · exact nodup_moveToFront _ _ hqn
  · exact hkn
  · intro k'
    show k' ∈ moveToFront c.queue key ↔ _
    rw [mem_moveToFront_iff _ _ _ hqn hkq]
    exact hmq k'
  · exact hik
  · simp [hm]
  · intro k' it' _ h
    exact hibl _ _ h
  · intro j k' hmem
    have hmem' : k' ∈ (getBucket (removeFromBucket c.buckets it) j).entries := hmem
    show k' ≠ key ∧ ∃ it', mapGet c.items k' = some it' ∧ it'.expireBucket = j
    by_cases hj : j = it.expireBucket
    · subst hj
      rw [hself] at hmem'
      obtain ⟨hkne, hkold⟩ := (hbn it.expireBucket).mem_erase_iff.mp hmem'
      refine ⟨by rw [← hkey]; exact hkne, ?_⟩
      exact hbti _ _ hkold
    · rw [hne j hj] at hmem'
      obtain ⟨it', hit', hbk⟩ := hbti _ _ hmem'
      have hkne : k' ≠ key := by
        rintro rfl
        rw [hm] at hit'
        have : it' = it := (Option.some.inj hit').symm
        subst this
        exact hj hbk.symm
      exact ⟨hkne, it', hit', hbk⟩
  · intro k' it' hkne h
    show k' ∈ (getBucket (removeFromBucket c.buckets it) it'.expireBucket).entries
    have hold := hitb _ _ h
    by_cases hj : it'.expireBucket = it.expireBucket
    · rw [hj, hself]
      refine (hbn it.expireBucket).mem_erase_iff.mpr ⟨by rw [hkey]; exact hkne, ?_⟩
      rw [← hj]
      exact hold
    · rw [hne _ hj]
      exact hold
  · intro j
    show (getBucket (removeFromBucket c.buckets it) j).entries.Nodup
    by_cases hj : j = it.expireBucket
    · subst hj; rw [hself]; exact (hbn _).erase _
    · rw [hne j hj]; exact hbn j
  · intro j k' it' hmem h
    have hmem' : k' ∈ (getBucket (removeFromBucket c.buckets it) j).entries := hmem
    show it'.expiresAt ≤ (getBucket (removeFromBucket c.buckets it) j).newestEntry
    by_cases hj : j = it.expireBucket
    · subst hj
      rw [hself] at hmem' ⊢
      exact hB _ _ _ (List.mem_of_mem_erase hmem') h
    · rw [hne j hj] at hmem' ⊢
      exact hB _ _ _ hmem' h

theorem PreAdd_insert (c1 : LRU) (now : Time) (key : Key) (v : Val)
    (hWF : WF c1) (hB : BucketBound c1) (hm : mapGet c1.items key = none) :
    PreAdd { c1 with
             queue := key :: c1.queue
             items := mapSet c1.items key
               { key := key, value := v, expiresAt := now + c1.ttl, expireBucket := 0 } } key := by
  obtain ⟨hbl, hcl, hqn, hkn, hmq, hik, hibl, hbti, hitb, hbn⟩ := hWF
  have hknq : key ∉ c1.queue := by
    intro hmem
    have := (hmq key).mp hmem
    simp [hm] at this
  constructor
  · exact hbl
  · exact hcl
  · exact List.nodup_cons.mpr ⟨hknq, hqn⟩
  · exact nodup_keys_mapSet _ _ _ hkn
  · intro k'
    show k' ∈ key :: c1.queue ↔ (mapGet (mapSet c1.items key
      { key := key, value := v, expiresAt := now + c1.ttl, expireBucket := 0 }) k').isSome
    by_cases hkk : k' = key
    · subst hkk
      rw [mapGet_mapSet_self]
      simp
    · rw [mapGet_mapSet_ne _ _ _ _ hkk, List.mem_cons]
      simp only [hkk, false_or]
      exact hmq k'
  · intro k' it' h
    replace h : mapGet (mapSet c1.items key
        { key := key, value := v, expiresAt := now + c1.ttl, expireBucket := 0 }) k'
        = some it' := h
    by_cases hkk : k' = key
    · subst hkk
      rw [mapGet_mapSet_self] at h
      have := Option.some.inj h
      subst this
      rfl
    · rw [mapGet_mapSet_ne _ _ _ _ hkk] at h
      exact hik _ _ h
  · show (mapGet (mapSet c1.items key
      { key := key, value := v, expiresAt := now + c1.ttl, expireBucket := 0 }) key).isSome
    rw [mapGet_mapSet_self]
    rfl
  · intro k' it' hkk h
    replace h : mapGet (mapSet c1.items key
        { key := key, value := v, expiresAt := now + c1.ttl, expireBucket := 0 }) k'
        = some it' := h
    rw [mapGet_mapSet_ne _ _ _ _ hkk] at h
    exact hibl _ _ h
  · intro j k' hmem
    have hmem' : k' ∈ (getBucket c1.buckets j).entries := hmem
    obtain ⟨it', hit', hbk⟩ := hbti _ _ hmem'
    have hkk : k' ≠ key := by
      rintro rfl
      rw [hm] at hit'
      cases hit'
    refine ⟨hkk, it', ?_, hbk⟩
    show mapGet (mapSet c1.items key
      { key := key, value := v, expiresAt := now + c1.ttl, expireBucket := 0 }) k' = some it'
    rw [mapGet_mapSet_ne _ _ _ _ hkk]
    exact hit'
  · intro k' it' hkk h
    replace h : mapGet (mapSet c1.items key
        { key := key, value := v, expiresAt := now + c1.ttl, expireBucket := 0 }) k'
        = some it' := h
    rw [mapGet_mapSet_ne _ _ _ _ hkk] at h
    exact hitb _ _ h
  · exact hbn
  · intro j k' it' hmem h
    have hmem' : k' ∈ (getBucket c1.buckets j).entries := hmem
    obtain ⟨it'', hit'', -⟩ := hbti _ _ hmem'
    have hkk : k' ≠ key := by
      rintro rfl
      rw [hm] at hit''
      cases hit''
    replace h : mapGet (mapSet c1.items key
        { key := key, value := v, expiresAt := now + c1.ttl, expireBucket := 0 }) k'
        = some it' := h
    rw [mapGet_mapSet_ne _ _ _ _ hkk] at h
    exact hB _ _ _ hmem' h

theorem Inv_Add (c : LRU) (now : Time) (key : Key) (v : Val)
    (hWF : WF c) (hB : BucketBound c) :
    WF (Add c now key v) ∧ BucketBound (Add c now key v) := by
  cases hm : mapGet c.items key with
  | some it =>
    rw [Add_refresh_eq c now key v it hm]
    have hkey : it.key = key := hWF.item_key _ _ hm
    have hpre := PreAdd_refresh c key it hWF hB hm
    exact ⟨WF_addToBucket _ _ key hkey hpre, BucketBound_addToBucket _ _ key hkey hpre⟩
  | none =>
    by_cases hlen : (c.items.length : Int) = c.cap
    · rw [Add_insert_full_eq c now key v hm hlen]
      obtain ⟨hWF1, hB1⟩ := Inv_removeOldest c hWF hB
      have hm1 := mapGet_removeOldest_none c key hm
      have hpre := PreAdd_insert (removeOldest c) now key v hWF1 hB1 hm1
      exact ⟨WF_addToBucket _ _ key rfl hpre, BucketBound_addToBucket _ _ key rfl hpre⟩
    · rw [Add_insert_slack_eq c now key v hm hlen]
      have hpre := PreAdd_insert c now key v hWF hB hm
      exact ⟨WF_addToBucket _ _ key rfl hpre, BucketBound_addToBucket _ _ key rfl hpre⟩

/-! ### Reachable states -/

theorem Inv_Reachable (c : LRU) (h : Reachable c) : WF c ∧ BucketBound c := by
  induction h with
  | new cap ttl => exact ⟨WF_NewLRU cap ttl, BucketBound_NewLRU cap ttl⟩
  | add c now k v _ ih => exact Inv_Add c now k v ih.1 ih.2
  | get c now k _ ih => exact Inv_Get c now k ih.1 ih.2
  | remove c k _ ih => exact Inv_Remove c k ih.1 ih.2
  | removeOldest c _ ih => exact Inv_RemoveOldest c ih.1 ih.2
  | purge c _ ih => exact ⟨WF_Purge c ih.1, BucketBound_Purge c⟩
  | sweep c _ ih => exact Inv_deleteExpired c ih.1 ih.2

/-! ### Frame facts about the unchanged scalar fields -/

theorem removeOldest_fields (c : LRU) :
    (removeOldest c).cap = c.cap ∧ (removeOldest c).ttl = c.ttl ∧
    (removeOldest c).nextCleanupBucket = c.nextCleanupBucket := by
  cases hq : c.queue.getLast? with
  | none => rw [removeOldest_eq_empty c hq]; exact ⟨rfl, rfl, rfl⟩
  | some k =>
    cases hm : mapGet c.items k with
    | none => rw [removeOldest_eq_dangling c k hq hm]; exact ⟨rfl, rfl, rfl⟩
    | some it => rw [removeOldest_eq_found c k it hq hm]; exact ⟨rfl, rfl, rfl⟩

theorem targetBucket_removeOldest (c : LRU) :
    targetBucket (removeOldest c) = targetBucket c := by
  unfold targetBucket
  rw [(removeOldest_fields c).2.2]

theorem Add_cap (c : LRU) (now : Time) (k : Key) (v : Val) :
    (Add c now k v).cap = c.cap := by
  cases hm : mapGet c.items k with
  | some it => rw [Add_refresh_eq c now k v it hm]; rfl
  | none =>
    by_cases hlen : (c.items.length : Int) = c.cap
    · rw [Add_insert_full_eq c now k v hm hlen]
      show (removeOldest c).cap = c.cap
      exact (removeOldest_fields c).1
    · rw [Add_insert_slack_eq c now k v hm hlen]; rfl

theorem newest_removeFromBucket (bs : List Bucket) (it : Item)
    (hi : it.expireBucket < bs.length) (j : Nat) :
    (getBucket (removeFromBucket bs it) j).newestEntry
      = (getBucket bs j).newestEntry := by
  by_cases hj : j = it.expireBucket
  · subst hj
    rw [show removeFromBucket bs it = setBucket bs it.expireBucket
        { getBucket bs it.expireBucket with
          entries := (getBucket bs it.expireBucket).entries.erase it.key } from rfl,
      getBucket_setBucket_self _ _ _ hi]
  · show (getBucket (setBucket bs it.expireBucket _) j).newestEntry = _
    rw [getBucket_setBucket_ne _ _ _ _ hj]

theorem newest_removeOldest (c : LRU) (hWF : WF c) (j : Nat) :
    (getBucket (removeOldest c).buckets j).newestEntry
      = (getBucket c.buckets j).newestEntry := by
  cases hq : c.queue.getLast? with
  | none => rw [removeOldest_eq_empty c hq]
  | some k =>
    cases hm : mapGet c.items k with
    | none => rw [removeOldest_eq_dangling c k hq hm]
    | some it =>
      rw [removeOldest_eq_found c k it hq hm]
      have hi : it.expireBucket < c.buckets.length := by
        rw [hWF.bucketsLen]; exact hWF.item_bucket_lt _ _ hm
      exact newest_removeFromBucket c.buckets it hi j


/-! ### Size bound for Add -/

theorem length_addToBucket_mem (c1 : LRU) (it : Item) (hnd : (keys c1.items).Nodup)
    (hsome : (mapGet c1.items it.key).isSome) :
    (addToBucket c1 it).items.length = c1.items.length := by
  rw [addToBucket_items]
  exact length_mapSet_of_mem _ _ _ hnd hsome

theorem length_removeOldest_add_one (c : LRU) (hWF : WF c) (hpos : 0 < c.items.length) :
    (removeOldest c).items.length + 1 = c.items.length := by
  obtain ⟨p, rest, hitems⟩ : ∃ p rest, c.items = p :: rest := by
    cases hc : c.items with
    | nil => rw [hc] at hpos; cases hpos
    | cons p rest => exact ⟨p, rest, rfl⟩
  have hk0 : (mapGet c.items p.1).isSome := by
    rw [hitems]
    obtain ⟨k0, it0⟩ := p
    simp [mapGet]
  have hk0q : p.1 ∈ c.queue := (hWF.mem_queue_iff p.1).mpr hk0
  have hqne : c.queue ≠ [] := by
    intro hq
    rw [hq] at hk0q
    cases hk0q
  obtain ⟨kb, hkb⟩ : ∃ kb, c.queue.getLast? = some kb := by
    cases hq : c.queue.getLast? with
    | none =>
      exfalso
      have := List.getLast?_isSome.mpr hqne
      rw [hq] at this
      cases this
    | some kb => exact ⟨kb, rfl⟩
  have hkbq : kb ∈ c.queue := List.mem_of_mem_getLast? hkb
  have hkbs : (mapGet c.items kb).isSome := (hWF.mem_queue_iff kb).mp hkbq
  obtain ⟨itb, hitb⟩ : ∃ itb, mapGet c.items kb = some itb := by
    cases hmb : mapGet c.items kb with
    | none => rw [hmb] at hkbs; cases hkbs
    | some itb => exact ⟨itb, rfl⟩
  rw [removeOldest_eq_found c kb itb hkb hitb]
  show (eraseKey c.items itb.key).length + 1 = c.items.length
  rw [hWF.item_key _ _ hitb]
  exact length_eraseKey_add_one c.items kb hWF.keysNodup hkbs

theorem Add_card_le (c : LRU) (now : Time) (k : Key) (v : Val)
    (hWF : WF c) (hB : BucketBound c)
    (hle : (c.items.length : Int) ≤ c.cap) (hcap : 1 ≤ c.cap) :
    ((Add c now k v).items.length : Int) ≤ c.cap := by
  cases hm : mapGet c.items k with
  | some it =>
    rw [Add_refresh_eq c now k v it hm, length_addToBucket_mem]
    · exact hle
    · exact hWF.keysNodup
    · show (mapGet c.items it.key).isSome
      rw [hWF.item_key _ _ hm]
      simp [hm]
  | none =>
    by_cases hlen : (c.items.length : Int) = c.cap
    · have hWF1 : WF (removeOldest c) := (Inv_removeOldest c hWF hB).1
      have hm1 : mapGet (removeOldest c).items k = none := mapGet_removeOldest_none c k hm
      have hpos : 0 < c.items.length := by
        by_contra hz
        have h0 : c.items.length = 0 := by omega
        rw [h0] at hlen
        simp at hlen
        omega
      have hro := length_removeOldest_add_one c hWF hpos
      rw [Add_insert_full_eq c now k v hm hlen, length_addToBucket_mem]
      · show ((mapSet (removeOldest c).items k
          { key := k, value := v, expiresAt := now + (removeOldest c).ttl,
            expireBucket := 0 }).length : Int) ≤ c.cap
        rw [length_mapSet_of_not_mem _ _ _ hm1]
        rw [show (removeOldest c).items.length + 1 = c.items.length from hro]
        exact le_of_eq hlen
      · show (keys (mapSet (removeOldest c).items k
          { key := k, value := v, expiresAt := now + (removeOldest c).ttl,
            expireBucket := 0 })).Nodup
        exact nodup_keys_mapSet _ _ _ hWF1.keysNodup
      · show (mapGet (mapSet (removeOldest c).items k
          { key := k, value := v, expiresAt := now + (removeOldest c).ttl,
            expireBucket := 0 }) k).isSome
        rw [mapGet_mapSet_self]
        rfl
    · rw [Add_insert_slack_eq c now k v hm hlen, length_addToBucket_mem]
      · show ((mapSet c.items k
          { key := k, value := v, expiresAt := now + c.ttl,
            expireBucket := 0 }).length : Int) ≤ c.cap
        rw [length_mapSet_of_not_mem _ _ _ hm]
        have : (c.items.length : Int) < c.cap := lt_of_le_of_ne hle hlen
        push_cast
        omega
      · show (keys (mapSet c.items k
          { key := k, value := v, expiresAt := now + c.ttl,
            expireBucket := 0 })).Nodup
        exact nodup_keys_mapSet _ _ _ hWF.keysNodup
      · show (mapGet (mapSet c.items k
          { key := k, value := v, expiresAt := now + c.ttl,
            expireBucket := 0 }) k).isSome
        rw [mapGet_mapSet_self]
        rfl

theorem addSeq_general (ops : List (Time × Key × Val)) :
    ∀ c : LRU, WF c → BucketBound c → 1 ≤ c.cap → (c.items.length : Int) ≤ c.cap →
      WF (addSeq c ops) ∧ BucketBound (addSeq c ops) ∧ (addSeq c ops).cap = c.cap ∧
      ((addSeq c ops).items.length : Int) ≤ c.cap := by
  induction ops with
  | nil => intro c hW hB hcap hle; exact ⟨hW, hB, rfl, hle⟩
  | cons op ops ih =>
    intro c hW hB hcap hle
    obtain ⟨hW2, hB2⟩ := Inv_Add c op.1 op.2.1 op.2.2 hW hB
    have hcap2 : 1 ≤ (Add c op.1 op.2.1 op.2.2).cap := by
      rw [Add_cap]
      exact hcap
    have hle2 : ((Add c op.1 op.2.1 op.2.2).items.length : Int)
        ≤ (Add c op.1 op.2.1 op.2.2).cap := by
      rw [Add_cap]
      exact Add_card_le c op.1 op.2.1 op.2.2 hW hB hle hcap
    obtain ⟨hW3, hB3, hcap3, hle3⟩ := ih (Add c op.1 op.2.1 op.2.2) hW2 hB2 hcap2 hle2
    refine ⟨hW3, hB3, ?_, ?_⟩
    · show (addSeq (Add c op.1 op.2.1 op.2.2) ops).cap = c.cap
      rw [hcap3, Add_cap]
    · show ((addSeq (Add c op.1 op.2.1 op.2.2) ops).items.length : Int) ≤ c.cap
      rw [← Add_cap c op.1 op.2.1 op.2.2]
      exact hle3

/-! ### The claims -/

/-- C1: for every capacity `c ≥ 1`, after any sequence of `Add` calls with
pairwise distinct keys starting from a fresh cache (no expiry or sweeping
intervening), the size of the key index never exceeds `c`: every prefix of
the sequence leaves at most `c` live entries. -/
theorem C1_capacity_invariant (cap ttl : Int) (hcap : 1 ≤ cap)
    (ops pre suf : List (Time × Key × Val))
    (hdist : (ops.map fun op => op.2.1).Nodup) (hsplit : ops = pre ++ suf) :
    ((addSeq (NewLRU cap ttl) pre).items.length : Int) ≤ cap := by
  have hc : (NewLRU cap ttl).cap = cap := by
    show (if cap < 0 then 0 else cap) = cap
    exact if_neg (by omega)
  have h := addSeq_general pre (NewLRU cap ttl) (WF_NewLRU cap ttl)
    (BucketBound_NewLRU cap ttl) (by rw [hc]; exact hcap)
    (by rw [hc]; show ((0 : Nat) : Int) ≤ cap; omega)
  have h4 := h.2.2.2
  rw [hc] at h4
  exact h4

theorem C1_capacity_invariant_witness :
    ((addSeq (NewLRU 2 10) [((0 : Int), "A", (1 : Int)), (0, "B", 2)]).items.length : Int)
      ≤ 2 :=
  C1_capacity_invariant 2 10 (by decide)
    [(0, "A", 1), (0, "B", 2), (0, "C", 3)] [(0, "A", 1), (0, "B", 2)] [(0, "C", 3)]
    (by decide) rfl

/-- C2: `Get` returns not-found on an absent key; returns not-found on a
present key whose expiry lies strictly before `now` (immediately, with no
sweeper involved); and otherwise moves the key to the front of the recency
queue and returns the stored value, leaving every other component of the
state unchanged. -/
theorem C2_get_contract (c : LRU) (now : Time) (k : Key) :
    (mapGet c.items k = none → Get c now k = (c, none)) ∧
    (∀ it, mapGet c.items k = some it → it.expiresAt < now → Get c now k = (c, none)) ∧
    (∀ it, mapGet c.items k = some it → ¬ it.expiresAt < now →
      (Get c now k).2 = some it.value ∧
      (Get c now k).1.queue = k :: c.queue.erase k ∧
      (Get c now k).1.items = c.items ∧
      (Get c now k).1.buckets = c.buckets ∧
      (Get c now k).1.cap = c.cap ∧
      (Get c now k).1.ttl = c.ttl ∧
      (Get c now k).1.nextCleanupBucket = c.nextCleanupBucket) := by
  refine ⟨fun h => Get_eq_absent c now k h,
    fun it h hexp => Get_eq_expired c now k it h hexp, ?_⟩
  intro it h hexp
  rw [Get_eq_live c now k it h hexp]
  exact ⟨rfl, rfl, rfl, rfl, rfl, rfl, rfl⟩

theorem C2_get_contract_witness :
    (Get (Add (NewLRU 2 10) 0 "A" 1) 0 "A").2 = some 1 := by
  have h := (C2_get_contract (Add (NewLRU 2 10) 0 "A" 1) 0 "A").2.2
    { key := "A", value := 1, expiresAt := 10, expireBucket := 99 } (by decide) (by decide)
  exact h.1

/-- C3: the code contradicts the claim that `ttl = 0` disables expiration.
With `ttl = 0` an entry's `ExpiresAt` equals its insertion instant, so a
`Get` at any strictly later time takes the `now > expiresAt` branch and
reports not-found even though the entry is still stored (and no sweeper
runs).  This theorem evaluates the code at the failing input. -/
theorem C3_ttl_zero_expires_immediately :
    mapGet (Add (NewLRU 1 0) 0 "A" 1).items "A"
      = some { key := "A", value := 1, expiresAt := 0, expireBucket := 99 } ∧
    (Get (Add (NewLRU 1 0) 0 "A" 1) 0 "A").2 = some 1 ∧
    (Get (Add (NewLRU 1 0) 0 "A" 1) 1 "A").2 = none := by
  refine ⟨by decide, by decide, by decide⟩

/-- C5 counterexample: `Get` on a present-but-expired key returns not-found
but does NOT destroy the entry — the state is exactly unchanged, and the key
is still in the key index, the recency queue and its bucket. -/
theorem C5_counterexample :
    mapGet C5state.items "A"
      = some { key := "A", value := 1, expiresAt := 10, expireBucket := 99 } ∧
    (10 : Int) < 20 ∧
    (Get C5state 20 "A").2 = none ∧
    (Get C5state 20 "A").1 = C5state ∧
    mapGet (Get C5state 20 "A").1.items "A"
      = some { key := "A", value := 1, expiresAt := 10, expireBucket := 99 } ∧
    "A" ∈ (Get C5state 20 "A").1.queue ∧
    "A" ∈ (getBucket (Get C5state 20 "A").1.buckets 99).entries := by
  refine ⟨by decide, by decide, by decide, by decide, by decide, by decide, by decide⟩

/-- C5 (amended): when `Get` finds the key present but past its expiry it
returns not-found and leaves the whole cache state unchanged; the entry is
not destroyed and remains until some other operation (Remove, eviction,
sweep or Purge) reclaims it. -/
theorem C5_expired_get_leaves_state (c : LRU) (now : Time) (k : Key) (it : Item)
    (h : mapGet c.items k = some it) (hexp : it.expiresAt < now) :
    Get c now k = (c, none) ∧ mapGet (Get c now k).1.items k = some it := by
  have heq := Get_eq_expired c now k it h hexp
  refine ⟨heq, ?_⟩
  rw [heq]
  exact h

theorem C5_expired_get_leaves_state_witness :
    Get C5state 20 "A" = (C5state, none) ∧
    mapGet (Get C5state 20 "A").1.items "A"
      = some { key := "A", value := 1, expiresAt := 10, expireBucket := 99 } :=
  C5_expired_get_leaves_state C5state 20 "A"
    { key := "A", value := 1, expiresAt := 10, expireBucket := 99 } (by decide) (by decide)

/-- C9: after `Purge` the key index is empty, the recency queue is empty,
every bucket's entry set is empty, `Get` reports not-found for every key at
every time, the live-entry count is 0, and the sweep cursor is unchanged. -/
theorem C9_purge_complete (c : LRU) :
    (Purge c).items = [] ∧
    (Purge c).queue = [] ∧
    (∀ i, (getBucket (Purge c).buckets i).entries = []) ∧
    (∀ now k, (Get (Purge c) now k).2 = none) ∧
    (Purge c).items.length = 0 ∧
    (Purge c).nextCleanupBucket = c.nextCleanupBucket := by
  refine ⟨rfl, rfl, ?_, ?_, rfl, rfl⟩
  · intro i
    exact getBucket_map_clear c.buckets i
  · intro now k
    rw [Get_eq_absent (Purge c) now k rfl]

/-- C6 counterexample: in a reachable state, a non-empty bucket whose
`newestEntry` (15) differs from the maximum `ExpiresAt` among its current
members (10, the sole member `A`): `removeFromBucket` never lowers
`newestEntry`, so it is not always the exact maximum. -/
theorem C6_counterexample :
    Reachable C6state ∧
    (getBucket C6state.buckets 99).entries = ["A"] ∧
    mapGet C6state.items "A"
      = some { key := "A", value := 1, expiresAt := 10, expireBucket := 99 } ∧
    (getBucket C6state.buckets 99).newestEntry = 15 ∧
    (15 : Int) ≠ 10 := by
  refine ⟨?_, by decide, by decide, by decide, by decide⟩
  exact Reachable.remove _ _ (Reachable.add _ _ _ _ (Reachable.add _ _ _ _ (Reachable.new 10 10)))

/-- C6 (amended): in every reachable cache state, a bucket's `newestEntry`
is an upper bound on the `ExpiresAt` of every current member (it can exceed
the maximum after members leave); this invariant is preserved by `Add`,
`Get`, `Remove`, `RemoveOldest`, `Purge` and every sweep step. -/
theorem C6_newestEntry_upper_bound (c : LRU) (h : Reachable c) :
    ∀ i k it, k ∈ (getBucket c.buckets i).entries → mapGet c.items k = some it →
      it.expiresAt ≤ (getBucket c.buckets i).newestEntry :=
  (Inv_Reachable c h).2

theorem C6_newestEntry_upper_bound_witness :
    ({ key := "A", value := 1, expiresAt := 10, expireBucket := 99 } : Item).expiresAt
      ≤ (getBucket C6state.buckets 99).newestEntry :=
  C6_newestEntry_upper_bound C6state
    (Reachable.remove _ _ (Reachable.add _ _ _ _ (Reachable.add _ _ _ _ (Reachable.new 10 10))))
    99 "A" { key := "A", value := 1, expiresAt := 10, expireBucket := 99 }
    (by decide) (by decide)

/-- C8: on a non-empty cache `RemoveOldest` removes the back-most entry of
the recency queue from the key index, the queue and its bucket and returns
its key and value as found — with no reference to its expiry (no hypothesis
on `expiresAt` appears); every other key's binding is untouched.  On an
empty cache it returns not-found and changes nothing. -/
theorem C8_removeOldest_contract (c : LRU) (hWF : WF c) :
    (c.queue = [] → RemoveOldest c = (c, none)) ∧
    (∀ k, c.queue.getLast? = some k →
      ∃ it, mapGet c.items k = some it ∧
        (RemoveOldest c).2 = some (k, it.value) ∧
        mapGet (RemoveOldest c).1.items k = none ∧
        k ∉ (RemoveOldest c).1.queue ∧
        (∀ j, k ∉ (getBucket (RemoveOldest c).1.buckets j).entries) ∧
        (∀ k', k' ≠ k → mapGet (RemoveOldest c).1.items k' = mapGet c.items k')) := by
  constructor
  · intro hq
    have hlast : c.queue.getLast? = none := by rw [hq]; rfl
    exact RemoveOldest_eq_empty c hlast
  · intro k hq
    have hkq : k ∈ c.queue := List.mem_of_mem_getLast? hq
    have hks : (mapGet c.items k).isSome := (hWF.mem_queue_iff k).mp hkq
    obtain ⟨it, hm⟩ : ∃ it, mapGet c.items k = some it := by
      cases hmm : mapGet c.items k with
      | none => rw [hmm] at hks; cases hks
      | some it => exact ⟨it, rfl⟩
    have hkey : it.key = k := hWF.item_key _ _ hm
    have heq := RemoveOldest_eq_found c k it hq hm
    have hi : it.expireBucket < c.buckets.length := by
      rw [hWF.bucketsLen]; exact hWF.item_bucket_lt _ _ hm
    have hself : getBucket (removeFromBucket c.buckets it) it.expireBucket
        = { getBucket c.buckets it.expireBucket with
            entries := (getBucket c.buckets it.expireBucket).entries.erase it.key } :=
      getBucket_setBucket_self _ _ _ hi
    refine ⟨it, hm, ?_, ?_, ?_, ?_, ?_⟩
    · rw [heq]
      show some (it.key, it.value) = some (k, it.value)
      rw [hkey]
    · rw [heq]
      show mapGet (eraseKey c.items it.key) k = none
      rw [hkey]
      exact mapGet_eraseKey_self _ _
    · rw [heq]
      show k ∉ c.queue.erase it.key
      rw [hkey]
      intro hmem
      exact absurd (hWF.queueNodup.mem_erase_iff.mp hmem).1 (by simp)
    · intro j
      rw [heq]
      show k ∉ (getBucket (removeFromBucket c.buckets it) j).entries
      by_cases hj : j = it.expireBucket
      · subst hj
        rw [hself]
        show k ∉ (getBucket c.buckets it.expireBucket).entries.erase it.key
        rw [hkey]
        intro hmem
        exact absurd ((hWF.bucketNodup it.expireBucket).mem_erase_iff.mp hmem).1 (by simp)
      · have hne : getBucket (removeFromBucket c.buckets it) j = getBucket c.buckets j :=
          getBucket_setBucket_ne _ _ _ _ hj
        rw [hne]
        intro hmem
        obtain ⟨it2, hit2, hbk2⟩ := hWF.bucket_to_items _ _ hmem
        rw [hm] at hit2
        have : it2 = it := (Option.some.inj hit2).symm
        subst this
        exact hj hbk2.symm
    · intro k' hk'
      rw [heq]
      show mapGet (eraseKey c.items it.key) k' = mapGet c.items k'
      rw [hkey]
      exact mapGet_eraseKey_ne _ _ _ hk'

theorem C8_removeOldest_contract_witness :
    (RemoveOldest (Add (NewLRU 2 10) 0 "A" 1)).2 = some ("A", 1) := by
  obtain ⟨it, hm, hout, -⟩ := (C8_removeOldest_contract (Add (NewLRU 2 10) 0 "A" 1)
    ((Inv_Add _ 0 "A" 1 (WF_NewLRU 2 10) (BucketBound_NewLRU 2 10)).1)).2 "A" (by decide)
  have hconc : mapGet (Add (NewLRU 2 10) 0 "A" 1).items "A"
      = some { key := "A", value := 1, expiresAt := 10, expireBucket := 99 } := by decide
  rw [hm] at hconc
  have hit := Option.some.inj hconc
  rw [hit] at hout
  exact hout

/-- C10: `Add` on a key that is present but already expired (not yet swept)
takes the update path: the live-entry count is unchanged and no other key's
binding changes (no eviction, even at capacity), the entry's value and
expiry are refreshed, it moves to the front of the recency queue, and `Get`
finds it again at any time not later than its new expiry. -/
theorem C10_add_expired_refresh (c : LRU) (now : Time) (k : Key) (v : Val) (it : Item)
    (hWF : WF c) (hm : mapGet c.items k = some it) (hexp : it.expiresAt < now) :
    (Add c now k v).items.length = c.items.length ∧
    (∀ k', k' ≠ k → mapGet (Add c now k v).items k' = mapGet c.items k') ∧
    (∃ it', mapGet (Add c now k v).items k = some it' ∧ it'.value = v ∧
      it'.expiresAt = now + c.ttl) ∧
    (Add c now k v).queue = k :: c.queue.erase k ∧
    (∀ now', ¬ now + c.ttl < now' → (Get (Add c now k v) now' k).2 = some v) := by
  have hkey : it.key = k := hWF.item_key _ _ hm
  subst hkey
  have heq := Add_refresh_eq c now it.key v it hm
  have hsome : (mapGet c.items it.key).isSome := by simp [hm]
  have hlook : mapGet (Add c now it.key v).items it.key
      = some { key := it.key, value := v, expiresAt := now + c.ttl,
               expireBucket := targetBucket
                 { c with queue := moveToFront c.queue it.key
                          buckets := removeFromBucket c.buckets it } } := by
    rw [heq, addToBucket_items]
    exact mapGet_mapSet_self _ _ _
  refine ⟨?_, ?_, ?_, ?_, ?_⟩
  · rw [heq, length_addToBucket_mem]
    · exact hWF.keysNodup
    · exact hsome
  · intro k' hk'
    rw [heq, addToBucket_items, mapGet_mapSet_ne]
    exact hk'
  · exact ⟨_, hlook, rfl, rfl⟩
  · rw [heq]
    rfl
  · intro now' hlt
    rw [Get_eq_live (Add c now it.key v) now' it.key _ hlook hlt]

theorem C10_add_expired_refresh_witness :
    (Get (Add (Add (NewLRU 1 10) 0 "A" 1) 20 "A" 5) 20 "A").2 = some 5 ∧
    (Add (Add (NewLRU 1 10) 0 "A" 1) 20 "A" 5).items.length
      = (Add (NewLRU 1 10) 0 "A" 1).items.length := by
  have h := C10_add_expired_refresh (Add (NewLRU 1 10) 0 "A" 1) 20 "A" 5
    { key := "A", value := 1, expiresAt := 10, expireBucket := 99 }
    ((Inv_Add _ 0 "A" 1 (WF_NewLRU 1 10) (BucketBound_NewLRU 1 10)).1)
    (by decide) (by decide)
  exact ⟨h.2.2.2.2 20 (by decide), h.1⟩

theorem addToBucket_spec (c1 : LRU) (it : Item) (k : Key) (hk : it.key = k)
    (hpre : PreAdd c1 k) :
    mapGet (addToBucket c1 it).items k
      = some { key := it.key, value := it.value, expiresAt := it.expiresAt,
               expireBucket := targetBucket c1 } ∧
    k ∈ (getBucket (addToBucket c1 it).buckets (targetBucket c1)).entries ∧
    (∀ j, j ≠ targetBucket c1 → k ∉ (getBucket (addToBucket c1 it).buckets j).entries) ∧
    (getBucket (addToBucket c1 it).buckets (targetBucket c1)).newestEntry
      = if (getBucket c1.buckets (targetBucket c1)).newestEntry < it.expiresAt
        then it.expiresAt else (getBucket c1.buckets (targetBucket c1)).newestEntry := by
  subst hk
  have hlt : targetBucket c1 < c1.buckets.length := by
    rw [hpre.bucketsLen]; exact targetBucket_lt c1
  have hGself : getBucket (addToBucket c1 it).buckets (targetBucket c1)
      = newBucketFor c1 it := by
    rw [addToBucket_buckets]
    exact getBucket_setBucket_self _ _ _ hlt
  have hGne : ∀ j, j ≠ targetBucket c1 →
      getBucket (addToBucket c1 it).buckets j = getBucket c1.buckets j := by
    intro j hj
    rw [addToBucket_buckets]
    exact getBucket_setBucket_ne _ _ _ _ hj
  refine ⟨?_, ?_, ?_, ?_⟩
  · rw [addToBucket_items]
    exact mapGet_mapSet_self _ _ _
  · rw [hGself, newBucketFor_entries]
    exact List.mem_cons_self _ _
  · intro j hj
    rw [hGne j hj]
    intro hmem
    exact absurd (hpre.bucket_to_items _ _ hmem).1 (by simp)
  · rw [hGself]
    exact newBucketFor_newest c1 it

/-- C7: every `Add` (insert or refresh) stores the touched entry in the
bucket with index `(nextSweepBucket - 1 + numBuckets) mod numBuckets`
(`numBuckets = 100`); a refreshed entry first leaves its old bucket (it is a
member of no other bucket afterwards); and the target bucket's
`newestEntry` is raised to the entry's new expiry exactly when that is
greater. -/
theorem C7_bucket_assignment (c : LRU) (now : Time) (k : Key) (v : Val)
    (hWF : WF c) (hB : BucketBound c) :
    ((targetBucket c : Int)
      = ((c.nextCleanupBucket : Int) - 1 + (numBuckets : Int)) % (numBuckets : Int)) ∧
    (∃ it', mapGet (Add c now k v).items k = some it' ∧
      it'.expireBucket = targetBucket c ∧ it'.value = v ∧ it'.expiresAt = now + c.ttl ∧
      k ∈ (getBucket (Add c now k v).buckets (targetBucket c)).entries ∧
      (∀ j, j ≠ targetBucket c → k ∉ (getBucket (Add c now k v).buckets j).entries)) ∧
    ((getBucket (Add c now k v).buckets (targetBucket c)).newestEntry
      = if (getBucket c.buckets (targetBucket c)).newestEntry < now + c.ttl
        then now + c.ttl
        else (getBucket c.buckets (targetBucket c)).newestEntry) := by
  have hformula : (targetBucket c : Int)
      = ((c.nextCleanupBucket : Int) - 1 + (numBuckets : Int)) % (numBuckets : Int) := by
    have hcl := hWF.cursorLt
    unfold targetBucket numBuckets at *
    omega
  refine ⟨hformula, ?_⟩
  cases hm : mapGet c.items k with
  | some it =>
    have hkey : it.key = k := hWF.item_key _ _ hm
    have hi : it.expireBucket < c.buckets.length := by
      rw [hWF.bucketsLen]; exact hWF.item_bucket_lt _ _ hm
    have hpre := PreAdd_refresh c k it hWF hB hm
    obtain ⟨h1, h2, h3, h4⟩ := addToBucket_spec _
      { it with value := v, expiresAt := now + c.ttl } k hkey hpre
    rw [Add_refresh_eq c now k v it hm]
    constructor
    · exact ⟨_, h1, rfl, rfl, rfl, h2, h3⟩
    · have h4' : (getBucket (addToBucket
          { c with queue := moveToFront c.queue k
                   buckets := removeFromBucket c.buckets it }
          { it with value := v, expiresAt := now + c.ttl }).buckets (targetBucket c)).newestEntry
          = if (getBucket (removeFromBucket c.buckets it) (targetBucket c)).newestEntry
              < now + c.ttl
            then now + c.ttl
            else (getBucket (removeFromBucket c.buckets it) (targetBucket c)).newestEntry := h4
      rw [newest_removeFromBucket c.buckets it hi (targetBucket c)] at h4'
      exact h4'
  | none =>
    by_cases hlen : (c.items.length : Int) = c.cap
    · have hWF1 : WF (removeOldest c) := (Inv_removeOldest c hWF hB).1
      have hB1 : BucketBound (removeOldest c) := (Inv_removeOldest c hWF hB).2
      have hm1 : mapGet (removeOldest c).items k = none := mapGet_removeOldest_none c k hm
      have hpre := PreAdd_insert (removeOldest c) now k v hWF1 hB1 hm1
      obtain ⟨h1, h2, h3, h4⟩ := addToBucket_spec _
        { key := k, value := v, expiresAt := now + (removeOldest c).ttl, expireBucket := 0 }
        k rfl hpre
      rw [Add_insert_full_eq c now k v hm hlen]
      have htb : targetBucket (removeOldest c) = targetBucket c := targetBucket_removeOldest c
      have httl : (removeOldest c).ttl = c.ttl := (removeOldest_fields c).2.1
      constructor
      · refine ⟨_, h1, ?_, rfl, ?_, ?_, ?_⟩
        · show targetBucket (removeOldest c) = targetBucket c
          exact htb
        · show now + (removeOldest c).ttl = now + c.ttl
          rw [httl]
        · rw [← htb]
          exact h2
        · intro j hj
          rw [← htb] at hj
          exact h3 j hj
      · have h4' : (getBucket (addToBucket
            { removeOldest c with
              queue := k :: (removeOldest c).queue
              items := mapSet (removeOldest c).items k
                { key := k, value := v, expiresAt := now + (removeOldest c).ttl,
                  expireBucket := 0 } }
            { key := k, value := v, expiresAt := now + (removeOldest c).ttl,
              expireBucket := 0 }).buckets (targetBucket (removeOldest c))).newestEntry
            = if (getBucket (removeOldest c).buckets
                  (targetBucket (removeOldest c))).newestEntry
                < now + (removeOldest c).ttl
              then now + (removeOldest c).ttl
              else (getBucket (removeOldest c).buckets
                  (targetBucket (removeOldest c))).newestEntry := h4
        rw [htb, newest_removeOldest c hWF (targetBucket c)] at h4'
        rw [← httl]
        exact h4'
    · have hpre := PreAdd_insert c now k v hWF hB hm
      obtain ⟨h1, h2, h3, h4⟩ := addToBucket_spec _
        { key := k, value := v, expiresAt := now + c.ttl, expireBucket := 0 } k rfl hpre
      rw [Add_insert_slack_eq c now k v hm hlen]
      exact ⟨⟨_, h1, rfl, rfl, rfl, h2, h3⟩, h4⟩

theorem C7_bucket_assignment_witness :
    ∃ it', mapGet (Add (NewLRU 2 10) 0 "A" 1).items "A" = some it' ∧
      it'.expireBucket = targetBucket (NewLRU 2 10) := by
  obtain ⟨-, ⟨it', ha, hb, -⟩, -⟩ := C7_bucket_assignment (NewLRU 2 10) 0 "A" 1
    (WF_NewLRU 2 10) (BucketBound_NewLRU 2 10)
  exact ⟨it', ha, hb⟩

/-- C4: on a fresh cache of capacity 2 (any non-negative ttl), the sequence
`Add(A,1); Add(B,2); Get(A); Add(C,3)` run at times `t1..t4`, with `A` and
`C` still unexpired when read, evicts `B`: afterwards `Get(A)` and `Get(C)`
succeed with the stored values and `Get(B)` reports not-found (`B` is gone
from the key index). -/
theorem C4_lru_eviction_order (ttl t1 t2 t3 t4 t5 : Int) (h0 : 0 ≤ ttl)
    (hA3 : ¬ t1 + ttl < t3) (hA5 : ¬ t1 + ttl < t5) (hC5 : ¬ t4 + ttl < t5) :
    (Get (Add (Get (Add (Add (NewLRU 2 ttl) t1 "A" 1) t2 "B" 2) t3 "A").1 t4 "C" 3) t5 "A").2
        = some 1 ∧
    (Get (Add (Get (Add (Add (NewLRU 2 ttl) t1 "A" 1) t2 "B" 2) t3 "A").1 t4 "C" 3) t5 "C").2
        = some 3 ∧
    (Get (Add (Get (Add (Add (NewLRU 2 ttl) t1 "A" 1) t2 "B" 2) t3 "A").1 t4 "C" 3) t5 "B").2
        = none ∧
    mapGet (Add (Get (Add (Add (NewLRU 2 ttl) t1 "A" 1) t2 "B" 2) t3 "A").1 t4 "C" 3).items "B"
        = none := by
  have hT : (NewLRU 2 ttl).ttl = ttl := if_neg (not_lt.mpr h0)
  have hmA2 : mapGet (Add (Add (NewLRU 2 ttl) t1 "A" 1) t2 "B" 2).items "A"
      = some { key := "A", value := 1, expiresAt := t1 + (NewLRU 2 ttl).ttl,
               expireBucket := 99 } := rfl
  rw [hT] at hmA2
  have hget3 := Get_eq_live (Add (Add (NewLRU 2 ttl) t1 "A" 1) t2 "B" 2) t3 "A" _ hmA2 hA3
  have hs3 : (Get (Add (Add (NewLRU 2 ttl) t1 "A" 1) t2 "B" 2) t3 "A").1
      = { Add (Add (NewLRU 2 ttl) t1 "A" 1) t2 "B" 2 with queue := ["A", "B"] } := by
    rw [hget3]
    exact rfl
  rw [hs3]
  have hmA4 : mapGet (Add { Add (Add (NewLRU 2 ttl) t1 "A" 1) t2 "B" 2 with
      queue := ["A", "B"] } t4 "C" 3).items "A"
      = some { key := "A", value := 1, expiresAt := t1 + (NewLRU 2 ttl).ttl,
               expireBucket := 99 } := rfl
  rw [hT] at hmA4
  have hmC4 : mapGet (Add { Add (Add (NewLRU 2 ttl) t1 "A" 1) t2 "B" 2 with
      queue := ["A", "B"] } t4 "C" 3).items "C"
      = some { key := "C", value := 3, expiresAt := t4 + (NewLRU 2 ttl).ttl,
               expireBucket := 99 } := rfl
  rw [hT] at hmC4
  have hmB4 : mapGet (Add { Add (Add (NewLRU 2 ttl) t1 "A" 1) t2 "B" 2 with
      queue := ["A", "B"] } t4 "C" 3).items "B" = none := rfl
  refine ⟨?_, ?_, ?_, hmB4⟩
  · rw [Get_eq_live _ t5 "A" _ hmA4 hA5]
  · rw [Get_eq_live _ t5 "C" _ hmC4 hC5]
  · rw [Get_eq_absent _ t5 "B" hmB4]

theorem C4_lru_eviction_order_witness :
    (Get (Add (Get (Add (Add (NewLRU 2 100) 0 "A" 1) 0 "B" 2) 0 "A").1 0 "C" 3) 0 "A").2
        = some 1 ∧
    (Get (Add (Get (Add (Add (NewLRU 2 100) 0 "A" 1) 0 "B" 2) 0 "A").1 0 "C" 3) 0 "C").2
        = some 3 ∧
    (Get (Add (Get (Add (Add (NewLRU 2 100) 0 "A" 1) 0 "B" 2) 0 "A").1 0 "C" 3) 0 "B").2
        = none ∧
    mapGet (Add (Get (Add (Add (NewLRU 2 100) 0 "A" 1) 0 "B" 2) 0 "A").1 0 "C" 3).items "B"
        = none :=
  C4_lru_eviction_order 100 0 0 0 0 0 (by decide) (by decide) (by decide) (by decide)
